import Mathlib

/-!
Shallow embedding of the Agent4All validator scoring and weight-distribution
engine.  The authoritative formulas live in `AGENT4ALL_WHITEPAPER.md`
("Mathematical Framework": Weight Calculation, Score Normalization,
Performance Metrics / Health Score).  The surrounding pipeline (score
normalizer guard, anti-gaming filter, sample selector, renormalization,
round composition) is not implemented in the repository sources; those
parts are modelled from the specification and are marked as such in their
doc comments.
-/

namespace Agent4All

/-- Weight Calculation from AGENT4ALL_WHITEPAPER.md, Mathematical Framework:
`W_i(t) = α * S_i(t) + (1-α) * W_i(t-1) * γ^Δt`, where `Δt` is the time
difference (in rounds) since the participant's last update. -/
def weightCalc (a g : ℚ) (dt : ℕ) (S Wprev : ℚ) : ℚ :=
  a * S + (1 - a) * Wprev * g ^ dt

/-- The update rule exactly as the specification words it:
`W_i(t) = α * S_i(t) + (1 - α) * W_i(t-1) * γ`, with the decay factor `γ`
applied once per round and not raised to a time-difference exponent.
This definition follows the spec's words and exists only to be compared
with `weightCalc`, which follows the source. -/
def weightCalcClaimed (a g : ℚ) (S Wprev : ℚ) : ℚ :=
  a * S + (1 - a) * Wprev * g

/-- Population mean of a list of rational scores (sum divided by length;
the empty list yields `0` because division by zero is `0` in `ℚ`). -/
def listMean (l : List ℚ) : ℚ := l.sum / l.length

/-- Population variance of a list of rational scores, as used by the
whitepaper's Score Normalization (`σ_R` is its square root). -/
def pvariance (l : List ℚ) : ℚ :=
  ((l.map fun x => (x - listMean l) ^ 2).sum) / l.length

/-- Population standard deviation `σ_R` from the whitepaper's Score
Normalization section. -/
noncomputable def pstdev (l : List ℚ) : ℝ :=
  Real.sqrt ((pvariance l : ℝ))

/-- Score Normalization from AGENT4ALL_WHITEPAPER.md:
`S_i(t) = (R_i(t) - μ_R(t)) / σ_R(t)`.
Modelled from the spec: the guard mapping the all-identical case
(`stdev == 0`) to `0` is stated only in the specification (§4.3); the
whitepaper gives the bare quotient.  The guard tests `pvariance l = 0`,
which is equivalent to `pstdev l = 0` (proved below). -/
noncomputable def zscore (l : List ℚ) (r : ℚ) : ℝ :=
  if pvariance l = 0 then 0
  else ((r : ℝ) - (listMean l : ℝ)) / pstdev l

/-- Response Time Scoring from AGENT4ALL_WHITEPAPER.md:
`RT_score = max(0, 1 - (RT_actual / RT_threshold))`. -/
def rtScore (rtActual rtThreshold : ℚ) : ℚ :=
  max 0 (1 - rtActual / rtThreshold)

/-- Success Rate Calculation from AGENT4ALL_WHITEPAPER.md:
`SR = (successful_requests / total_requests) * 100`. -/
def successRate (successful total : ℕ) : ℚ :=
  ((successful : ℚ) / (total : ℚ)) * 100

/-- Failure penalty from AGENT4ALL_WHITEPAPER.md:
`failure_penalty = min(1, consecutive_failures / max_failures)`. -/
def failurePenalty (consecutiveFailures maxFailures : ℕ) : ℚ :=
  min 1 ((consecutiveFailures : ℚ) / (maxFailures : ℚ))

/-- Health Score Formula from AGENT4ALL_WHITEPAPER.md:
`Health = (SR * 0.6 + RT_score * 0.4) * (1 - failure_penalty)`. -/
def healthScore (successful total : ℕ) (rtActual rtThreshold : ℚ)
    (consecutiveFailures maxFailures : ℕ) : ℚ :=
  (successRate successful total * (6 / 10) + rtScore rtActual rtThreshold * (4 / 10)) *
    (1 - failurePenalty consecutiveFailures maxFailures)

/-- Modelled from the spec: per-participant outcome of the Concurrent
Evaluation Pool for one round (the pool itself is not in the repository
sources).  `raw = none` records a failed / timed-out evaluation; the
content hash and response latency feed the Anti-Gaming Filter. -/
structure EvalResult where
  pid : ℕ
  raw : Option ℚ
  contentHash : ℕ
  latency : ℚ
deriving DecidableEq, Repr

/-- The round's successful (non-null) raw scores, in arrival order.
Nulls are excluded, as required by the spec's Score Normalizer contract. -/
def succScores (l : List EvalResult) : List ℚ :=
  l.filterMap (·.raw)

/-- Minimum of a list of rationals (`none` on the empty list). -/
def minQ : List ℚ → Option ℚ
  | [] => none
  | x :: xs =>
    match minQ xs with
    | none => some x
    | some m => some (min x m)

/-- The verdict recorded for participant `i` in the round, if any. -/
def resultOf (l : List EvalResult) (i : ℕ) : Option EvalResult :=
  (l.filter fun v => v.pid == i).head?

/-- Number of submissions in the round sharing content hash `h`. -/
def dupCount (l : List EvalResult) (h : ℕ) : ℕ :=
  (l.filter fun v => v.contentHash == h).length

/-- Modelled from the spec: configuration struct of §6 (learning rate `α`,
decay factor `γ`, duplicate-hash penalty factor, latency-anomaly penalty
factor with its minimum plausible latency, and the emission budget). -/
structure PipelineConfig where
  alpha : ℚ
  gamma : ℚ
  dupFactor : ℚ
  latFactor : ℚ
  minLatency : ℚ
  budget : ℚ
deriving DecidableEq, Repr

/-- Modelled from the spec: the Anti-Gaming Filter's multiplicative penalty
factor for one submission — the duplicate-content check and the
latency-anomaly check applied independently and combined multiplicatively.
The burn-in check needs cross-round history, which no claim exercises, and
is not modelled. -/
def penaltyFactor (cfg : PipelineConfig) (l : List EvalResult) (v : EvalResult) : ℚ :=
  (if 2 ≤ dupCount l v.contentHash then cfg.dupFactor else 1) *
    (if v.latency < cfg.minLatency then cfg.latFactor else 1)

/-- Modelled from the spec: the minimum possible normalized score of the
round — the normalized score of the smallest successful raw score (all
normalized scores are `0` when the variance vanishes, so this is `0`
there as well, and on a round with no successes). -/
noncomputable def worstScore (l : List EvalResult) : ℝ :=
  match minQ (succScores l) with
  | some m => zscore (succScores l) m
  | none => 0

/-- Modelled from the spec: the Score Normalizer's output for participant
`i` — the z-score of their raw score over the round's successful scores,
with failed/null evaluations mapped to the round's minimum normalized
score (never a neutral default).  Participants not sampled this round have
no normalized score; the value `0` returned for them is never consumed
(the aggregator takes the decay branch for them). -/
noncomputable def normScore (l : List EvalResult) (i : ℕ) : ℝ :=
  match resultOf l i with
  | some v =>
    match v.raw with
    | some r => zscore (succScores l) r
    | none => worstScore l
  | none => 0

/-- Modelled from the spec: the Anti-Gaming Filter's adjusted score,
`adjusted = normalized * penalty_factor`. -/
noncomputable def adjustedScore (cfg : PipelineConfig) (l : List EvalResult) (i : ℕ) : ℝ :=
  match resultOf l i with
  | some v => normScore l i * ((penaltyFactor cfg l v : ℚ) : ℝ)
  | none => 0

/-- Modelled from the spec: the min-max clamp rescaling the adjusted score
into `[0,1]` before it enters the decay recurrence (the spec leaves the
choice of monotonic map open; the clamp is the fixed pick). -/
noncomputable def rescale (x : ℝ) : ℝ := max 0 (min 1 x)

/-- Modelled from the spec: the Weight Aggregator's per-participant update
for a sampled participant, `α * S + (1-α) * W_prev * γ`, as a function of
the score `S` about to be rescaled into `[0,1]`. -/
noncomputable def weightWithScore (cfg : PipelineConfig) (W : ℕ → ℝ) (i : ℕ) (S : ℝ) : ℝ :=
  (cfg.alpha : ℝ) * rescale S + (1 - (cfg.alpha : ℝ)) * W i * (cfg.gamma : ℝ)

/-- Modelled from the spec: the Weight Aggregator's pre-renormalization
update.  A sampled participant gets the decay recurrence on their adjusted
score; an un-sampled participant's weight decays by `γ` alone (`α`
contributes nothing, since no score exists for them). -/
noncomputable def aggregateStep (cfg : PipelineConfig) (l : List EvalResult)
    (W : ℕ → ℝ) (i : ℕ) : ℝ :=
  if i ∈ l.map (·.pid) then weightWithScore cfg W i (adjustedScore cfg l i)
  else W i * (cfg.gamma : ℝ)

/-- Modelled from the spec: the aggregator's final renormalization, scaling
every weight so the vector sums to the fixed emission budget over the
registry `R`. -/
noncomputable def renormalize (budget : ℚ) (R : List ℕ) (W : ℕ → ℝ) : ℕ → ℝ :=
  fun i => W i * (budget : ℝ) / ((R.map W).sum)

/-- Modelled from the spec: one complete Normalizer → Anti-Gaming →
Aggregator round over the registry `R`, prior weights `W` and the round's
evaluation results `l`. -/
noncomputable def roundPipeline (cfg : PipelineConfig) (R : List ℕ)
    (l : List EvalResult) (W : ℕ → ℝ) : ℕ → ℝ :=
  renormalize cfg.budget R (aggregateStep cfg l W)

/-- Modelled from the spec: the Sample Selector.  The weighted-random
shuffle is abstracted as the already-shuffled list of eligible
participant ids given as input; the selector returns the first `k` of
them, or `none` (`InsufficientParticipants`) when fewer than `k` are
eligible. -/
def sampleSelect (elig : List ℕ) (k : ℕ) : Option (List ℕ) :=
  if elig.length < k then none else some (elig.take k)

/-- Concrete configuration used as a test vector. -/
def sampleConfig : PipelineConfig :=
  { alpha := 1 / 2, gamma := 1 / 2, dupFactor := 1 / 10, latFactor := 1 / 2
    minLatency := 0, budget := 1 }

/-- Test vector: a successful evaluation by participant 0. -/
def v0 : EvalResult := { pid := 0, raw := some (1 / 2), contentHash := 3, latency := 1 }

/-- Test vector: a failed (null-score) evaluation by participant 1. -/
def v1 : EvalResult := { pid := 1, raw := none, contentHash := 4, latency := 2 }

/-- Test vector: a successful evaluation by participant 2 whose submission
content hash collides with participant 0's. -/
def v2 : EvalResult := { pid := 2, raw := some (1 / 2), contentHash := 3, latency := 1 }

/-! ### Basic facts about the normalization statistics -/

theorem pvariance_nonneg (l : List ℚ) : 0 ≤ pvariance l := by
  unfold pvariance
  apply div_nonneg
  · exact List.sum_nonneg (by
      intro x hx
      rcases List.mem_map.mp hx with ⟨y, _, rfl⟩
      positivity)
  · positivity

theorem pstdev_eq_zero_iff (l : List ℚ) : pstdev l = 0 ↔ pvariance l = 0 := by
  unfold pstdev
  rw [Real.sqrt_eq_zero']
  constructor
  · intro h
    have h0 : (0 : ℝ) ≤ (pvariance l : ℝ) := by
      exact_mod_cast pvariance_nonneg l
    exact_mod_cast le_antisymm h h0
  · intro h
    rw [h]
    exact le_of_eq (by norm_num)

theorem pstdev_pos (l : List ℚ) (h : pvariance l ≠ 0) : 0 < pstdev l := by
  unfold pstdev
  rw [Real.sqrt_pos]
  have h0 := pvariance_nonneg l
  exact_mod_cast lt_of_le_of_ne h0 (Ne.symm h)

theorem listMean_of_const (l : List ℚ) (c : ℚ) (hne : l ≠ [])
    (h : ∀ x ∈ l, x = c) : listMean l = c := by
  unfold listMean
  rw [List.sum_eq_card_nsmul l c h, nsmul_eq_mul]
  have hlen : (l.length : ℚ) ≠ 0 := by
    have : l.length ≠ 0 := fun h0 => hne (List.length_eq_zero.mp h0)
    exact_mod_cast this
  field_simp

theorem pvariance_of_const (l : List ℚ)
    (h : ∀ x ∈ l, ∀ y ∈ l, x = y) : pvariance l = 0 := by
  cases l with
  | nil => simp [pvariance, listMean]
  | cons a t =>
    have hall : ∀ x ∈ a :: t, x = a := fun x hx =>
      h x hx a (List.mem_cons_self a t)
    have hmean : listMean (a :: t) = a :=
      listMean_of_const _ a (by simp) hall
    unfold pvariance
    rw [hmean]
    have hz : ((a :: t).map fun x => (x - a) ^ 2).sum = 0 := by
      rw [List.sum_eq_card_nsmul _ 0, smul_zero]
      intro x hx
      rcases List.mem_map.mp hx with ⟨y, hy, rfl⟩
      rw [hall y hy]
      ring
    rw [hz]
    simp

theorem zscore_of_const (l : List ℚ) (r : ℚ)
    (h : ∀ x ∈ l, ∀ y ∈ l, x = y) : zscore l r = 0 := by
  unfold zscore
  rw [if_pos (pvariance_of_const l h)]

theorem zscore_mono (l : List ℚ) {r r' : ℚ} (h : r ≤ r') :
    zscore l r ≤ zscore l r' := by
  unfold zscore
  by_cases hv : pvariance l = 0
  · simp only [if_pos hv]; exact le_refl 0
  · simp only [if_neg hv]
    have hσ : 0 < pstdev l := pstdev_pos l hv
    rw [div_le_div_iff_of_pos_right hσ]
    have : (r : ℝ) ≤ (r' : ℝ) := by exact_mod_cast h
    linarith

/-! ### The list minimum used for the round's worst score -/

theorem minQ_perm {l l' : List ℚ} (h : l.Perm l') : minQ l = minQ l' := by
  induction h with
  | nil => rfl
  | cons x _ ih => simp only [minQ, ih]
  | swap x y t =>
    simp only [minQ]
    cases minQ t with
    | none => simp [min_comm]
    | some m => simp [min_left_comm]
  | trans _ _ ih₁ ih₂ => exact ih₁.trans ih₂

theorem minQ_cons_isSome (a : ℚ) (t : List ℚ) : ∃ m, minQ (a :: t) = some m := by
  simp only [minQ]
  cases minQ t with
  | none => exact ⟨a, rfl⟩
  | some m' => exact ⟨min a m', rfl⟩

theorem minQ_le {l : List ℚ} {m : ℚ} (h : minQ l = some m) :
    ∀ x ∈ l, m ≤ x := by
  induction l generalizing m with
  | nil => simp [minQ] at h
  | cons a t ih =>
    intro x hx
    cases hmt : minQ t with
    | none =>
      simp only [minQ, hmt, Option.some.injEq] at h
      have ht : ∀ y ∈ t, m ≤ y := by
        intro y hy
        cases t with
        | nil => simp at hy
        | cons b u =>
          rcases minQ_cons_isSome b u with ⟨m', hm'⟩
          rw [hm'] at hmt
          cases hmt
      rcases List.mem_cons.mp hx with rfl | hxt
      · exact le_of_eq h.symm
      · exact ht x hxt
    | some m' =>
      simp only [minQ, hmt, Option.some.injEq] at h
      rcases List.mem_cons.mp hx with rfl | hxt
      · rw [← h]; exact min_le_left _ _
      · rw [← h]
        exact le_trans (min_le_right _ _) (ih hmt x hxt)

/-! ### Looking up a participant's verdict -/

theorem resultOf_eq_some {l : List EvalResult} {i : ℕ} {v : EvalResult}
    (h : resultOf l i = some v) : v ∈ l ∧ v.pid = i := by
  unfold resultOf at h
  rcases List.head?_eq_some_iff.mp h with ⟨ys, hys⟩
  have hv : v ∈ l.filter fun w => w.pid == i := by
    rw [hys]; exact List.mem_cons_self _ _
  rcases List.mem_filter.mp hv with ⟨hmem, hpid⟩
  exact ⟨hmem, by simpa using hpid⟩

theorem mem_succScores {l : List EvalResult} {i : ℕ} {v : EvalResult} {r : ℚ}
    (hres : resultOf l i = some v) (hraw : v.raw = some r) :
    r ∈ succScores l :=
  List.mem_filterMap.mpr ⟨v, (resultOf_eq_some hres).1, hraw⟩

theorem mem_pids_of_resultOf {l : List EvalResult} {i : ℕ} {v : EvalResult}
    (hres : resultOf l i = some v) : i ∈ l.map (·.pid) := by
  rcases resultOf_eq_some hres with ⟨hmem, hpid⟩
  exact List.mem_map.mpr ⟨v, hmem, hpid⟩

theorem filter_pid_length_le_one {l : List EvalResult}
    (hnd : (l.map (·.pid)).Nodup) (i : ℕ) :
    (l.filter fun v => v.pid == i).length ≤ 1 := by
  induction l with
  | nil => simp
  | cons a t ih =>
    rw [List.map_cons, List.nodup_cons] at hnd
    by_cases hpid : a.pid = i
    · rw [List.filter_cons_of_pos (by simpa using hpid)]
      have ht : (t.filter fun v => v.pid == i) = [] := by
        rw [List.filter_eq_nil_iff]
        intro b hb hbi
        have hbp : b.pid = i := by simpa using hbi
        exact hnd.1 (List.mem_map.mpr ⟨b, hb, hbp.trans hpid.symm⟩)
      rw [ht]
      simp
    · rw [List.filter_cons_of_neg (by simpa using hpid)]
      exact ih hnd.2

theorem perm_eq_of_length_le_one {α : Type} {l₁ l₂ : List α}
    (h : l₁.Perm l₂) (hl : l₁.length ≤ 1) : l₁ = l₂ := by
  cases l₁ with
  | nil => exact ((List.perm_nil.mp h.symm)).symm
  | cons a t =>
    cases t with
    | nil => exact List.singleton_perm.mp h
    | cons b u => simp at hl

theorem resultOf_perm {l l' : List EvalResult} (hp : l.Perm l')
    (hnd : (l.map (·.pid)).Nodup) (i : ℕ) :
    resultOf l i = resultOf l' i := by
  unfold resultOf
  rw [perm_eq_of_length_le_one (hp.filter _) (filter_pid_length_le_one hnd i)]

/-! ### Order-independence of the round statistics -/

theorem succScores_perm {l l' : List EvalResult} (hp : l.Perm l') :
    (succScores l).Perm (succScores l') :=
  hp.filterMap _

theorem listMean_perm {l l' : List ℚ} (hp : l.Perm l') :
    listMean l = listMean l' := by
  unfold listMean
  rw [hp.sum_eq, hp.length_eq]

theorem pvariance_perm {l l' : List ℚ} (hp : l.Perm l') :
    pvariance l = pvariance l' := by
  unfold pvariance
  rw [listMean_perm hp, List.Perm.sum_eq (hp.map _), hp.length_eq]

theorem pstdev_perm {l l' : List ℚ} (hp : l.Perm l') :
    pstdev l = pstdev l' := by
  unfold pstdev
  rw [pvariance_perm hp]

theorem zscore_perm {l l' : List ℚ} (hp : l.Perm l') (r : ℚ) :
    zscore l r = zscore l' r := by
  unfold zscore
  rw [pvariance_perm hp, listMean_perm hp, pstdev_perm hp]

theorem worstScore_perm {l l' : List EvalResult} (hp : l.Perm l') :
    worstScore l = worstScore l' := by
  unfold worstScore
  rw [minQ_perm (succScores_perm hp)]
  cases minQ (succScores l') with
  | none => rfl
  | some m => exact zscore_perm (succScores_perm hp) m

theorem dupCount_perm {l l' : List EvalResult} (hp : l.Perm l') (h : ℕ) :
    dupCount l h = dupCount l' h :=
  (hp.filter _).length_eq

theorem penaltyFactor_perm (cfg : PipelineConfig) {l l' : List EvalResult}
    (hp : l.Perm l') (v : EvalResult) :
    penaltyFactor cfg l v = penaltyFactor cfg l' v := by
  unfold penaltyFactor
  rw [dupCount_perm hp]

theorem normScore_perm {l l' : List EvalResult} (hp : l.Perm l')
    (hnd : (l.map (·.pid)).Nodup) (i : ℕ) :
    normScore l i = normScore l' i := by
  unfold normScore
  rw [resultOf_perm hp hnd i]
  cases resultOf l' i with
  | none => rfl
  | some v =>
    dsimp only
    cases v.raw with
    | none => exact worstScore_perm hp
    | some r => exact zscore_perm (succScores_perm hp) r

theorem adjustedScore_perm (cfg : PipelineConfig) {l l' : List EvalResult}
    (hp : l.Perm l') (hnd : (l.map (·.pid)).Nodup) (i : ℕ) :
    adjustedScore cfg l i = adjustedScore cfg l' i := by
  unfold adjustedScore
  rw [resultOf_perm hp hnd i]
  cases resultOf l' i with
  | none => rfl
  | some v =>
    dsimp only
    rw [normScore_perm hp hnd i, penaltyFactor_perm cfg hp v]

theorem aggregateStep_perm (cfg : PipelineConfig) {l l' : List EvalResult}
    (hp : l.Perm l') (hnd : (l.map (·.pid)).Nodup) (W : ℕ → ℝ) :
    aggregateStep cfg l W = aggregateStep cfg l' W := by
  funext i
  unfold aggregateStep
  have hmem : (i ∈ l.map (·.pid)) ↔ (i ∈ l'.map (·.pid)) := (hp.map _).mem_iff
  by_cases h : i ∈ l.map (·.pid)
  · rw [if_pos h, if_pos (hmem.mp h)]
    unfold weightWithScore
    rw [adjustedScore_perm cfg hp hnd i]
  · rw [if_neg h, if_neg (fun hh => h (hmem.mpr hh))]

/-! ### The clamp, the per-participant update, and penalty bounds -/

theorem rescale_nonneg (x : ℝ) : 0 ≤ rescale x := le_max_left _ _

theorem rescale_le_one (x : ℝ) : rescale x ≤ 1 := by
  unfold rescale
  exact max_le (by norm_num) (min_le_left _ _)

theorem rescale_mono {x y : ℝ} (h : x ≤ y) : rescale x ≤ rescale y := by
  unfold rescale
  exact max_le_max (le_refl 0) (min_le_min (le_refl 1) h)

theorem worstScore_le_zscore {l : List EvalResult} {r : ℚ}
    (hr : r ∈ succScores l) : worstScore l ≤ zscore (succScores l) r := by
  unfold worstScore
  cases hs : succScores l with
  | nil => rw [hs] at hr; simp at hr
  | cons a t =>
    rcases minQ_cons_isSome a t with ⟨m, hm⟩
    rw [hm]
    dsimp only
    exact zscore_mono _ (minQ_le hm r (by rw [hs] at hr; exact hr))

theorem weightWithScore_mono (cfg : PipelineConfig) (W : ℕ → ℝ) (i : ℕ)
    (ha : 0 ≤ cfg.alpha) {S S' : ℝ} (h : S ≤ S') :
    weightWithScore cfg W i S ≤ weightWithScore cfg W i S' := by
  unfold weightWithScore
  have hmul : (cfg.alpha : ℝ) * rescale S ≤ (cfg.alpha : ℝ) * rescale S' :=
    mul_le_mul_of_nonneg_left (rescale_mono h) (by exact_mod_cast ha)
  linarith

theorem weightWithScore_nonneg (cfg : PipelineConfig) (W : ℕ → ℝ) (i : ℕ) (S : ℝ)
    (ha0 : 0 ≤ cfg.alpha) (ha1 : cfg.alpha ≤ 1) (hg : 0 ≤ cfg.gamma)
    (hW : 0 ≤ W i) : 0 ≤ weightWithScore cfg W i S := by
  unfold weightWithScore
  have h1 : (0 : ℝ) ≤ (cfg.alpha : ℝ) * rescale S :=
    mul_nonneg (by exact_mod_cast ha0) (rescale_nonneg S)
  have h2 : (0 : ℝ) ≤ (1 - (cfg.alpha : ℝ)) * W i * (cfg.gamma : ℝ) := by
    have ha1R : (cfg.alpha : ℝ) ≤ 1 := by exact_mod_cast ha1
    have : (0 : ℝ) ≤ 1 - (cfg.alpha : ℝ) := by linarith
    exact mul_nonneg (mul_nonneg this hW) (by exact_mod_cast hg)
  linarith

theorem two_le_length_of_mem {α : Type} {a b : α} {l : List α}
    (ha : a ∈ l) (hb : b ∈ l) (hab : a ≠ b) : 2 ≤ l.length := by
  induction l with
  | nil => simp at ha
  | cons x t ih =>
    rcases List.mem_cons.mp ha with rfl | hat
    · rcases List.mem_cons.mp hb with rfl | hbt
      · exact absurd rfl hab
      · have h1 : 1 ≤ t.length := List.length_pos.mpr (List.ne_nil_of_mem hbt)
        simp only [List.length_cons]
        omega
    · have h1 : 1 ≤ t.length := List.length_pos.mpr (List.ne_nil_of_mem hat)
      simp only [List.length_cons]
      omega

theorem penaltyFactor_of_dup (cfg : PipelineConfig) (l : List EvalResult)
    (v : EvalResult) (hdup : 2 ≤ dupCount l v.contentHash)
    (hd0 : 0 ≤ cfg.dupFactor) (hd1 : cfg.dupFactor ≤ 1)
    (hl0 : 0 ≤ cfg.latFactor) (hl1 : cfg.latFactor ≤ 1) :
    penaltyFactor cfg l v ≤ cfg.dupFactor
    ∧ 0 ≤ penaltyFactor cfg l v ∧ penaltyFactor cfg l v ≤ 1 := by
  unfold penaltyFactor
  rw [if_pos hdup]
  by_cases hlat : v.latency < cfg.minLatency
  · rw [if_pos hlat]
    refine ⟨?_, mul_nonneg hd0 hl0, ?_⟩
    · calc cfg.dupFactor * cfg.latFactor ≤ cfg.dupFactor * 1 :=
            mul_le_mul_of_nonneg_left hl1 hd0
        _ = cfg.dupFactor := mul_one _
    · nlinarith
  · rw [if_neg hlat, mul_one]
    exact ⟨le_refl _, hd0, hd1⟩

/-! ### Claim theorems -/

/-- C1, counterexample: with `α = 1/10` and `γ = 19/20` (inside the
whitepaper's ranges `0.1 ≤ α ≤ 0.3` and `0.95 ≤ γ ≤ 0.99`), prior weight
`1`, score `0` and `Δt = 2` rounds since the participant's last update,
the source's Weight Calculation `weightCalc` disagrees with the claim's
once-per-round formula `weightCalcClaimed`: the source multiplies the
decayed prior weight by `γ^Δt`, the claim by a single `γ`. -/
theorem weight_decay_exponent_counterexample :
    weightCalc (1 / 10) (19 / 20) 2 0 1 ≠ weightCalcClaimed (1 / 10) (19 / 20) 0 1 := by
  norm_num [weightCalc, weightCalcClaimed]

/-- C1 (amended): the Weight Aggregator computes the pre-renormalization
weight as `W_i(t) = α * S_i(t) + (1-α) * W_i(t-1) * γ^Δt`, with the decay
factor raised to the time difference `Δt` since the participant's last
update; only for `Δt = 1` (a participant updated every round) does this
coincide with the claim's `W_i(t) = α * S_i(t) + (1-α) * W_i(t-1) * γ`. -/
theorem weight_update_formula_amended (a g S Wprev : ℚ) (dt : ℕ) :
    weightCalc a g dt S Wprev = a * S + (1 - a) * Wprev * g ^ dt
    ∧ weightCalc a g 1 S Wprev = weightCalcClaimed a g S Wprev := by
  constructor
  · rfl
  · unfold weightCalc weightCalcClaimed
    rw [pow_one]

/-- C2: the Normalizer → Anti-Gaming → Aggregator pipeline is
order-independent: two runs over the same set of verdicts — any
permutation of the arrival order — with identical prior weights, registry
and configuration produce the same WeightVector. -/
theorem pipeline_order_independent (cfg : PipelineConfig) (R : List ℕ)
    {l l' : List EvalResult} (W : ℕ → ℝ)
    (hperm : l.Perm l') (hnd : (l.map (·.pid)).Nodup) :
    roundPipeline cfg R l W = roundPipeline cfg R l' W := by
  unfold roundPipeline
  rw [aggregateStep_perm cfg hperm hnd W]

/-- C3: after the aggregator's renormalization, the WeightVector sums to
the fixed emission budget over the registry, provided the
pre-renormalization total is non-zero (a vanishing total is the spec's
`AggregationInvariantViolation`, which discards the round instead of
producing a vector). -/
theorem budget_invariant (cfg : PipelineConfig) (R : List ℕ)
    (l : List EvalResult) (W : ℕ → ℝ)
    (h : (R.map (aggregateStep cfg l W)).sum ≠ 0) :
    (R.map (roundPipeline cfg R l W)).sum = (cfg.budget : ℝ) := by
  unfold roundPipeline renormalize
  have hmap : (R.map fun i => aggregateStep cfg l W i * (cfg.budget : ℝ) /
        (R.map (aggregateStep cfg l W)).sum)
      = R.map fun i => aggregateStep cfg l W i *
          ((cfg.budget : ℝ) / (R.map (aggregateStep cfg l W)).sum) := by
    apply List.map_congr_left
    intro i _
    rw [mul_div_assoc]
  rw [hmap, List.sum_map_mul_right]
  field_simp

/-- C4, counterexample: on a round whose successful raw scores are
`[0, 1]`, the whitepaper's Score Normalization assigns the raw score `0`
the z-score `-1`; feeding that negative normalized score into the
whitepaper's Weight Calculation with non-negative prior weight `0`
(`α = 1/10`, `γ = 19/20`, `Δt = 1`) yields the negative weight `-1/10`,
violating the claimed unconditional non-negativity. -/
theorem weight_nonneg_counterexample :
    zscore [0, 1] 0 = -1 ∧ weightCalc (1 / 10) (19 / 20) 1 (-1) 0 < 0 := by
  have hvar : pvariance [0, 1] = 1 / 4 := by
    norm_num [pvariance, listMean]
  have hmean : listMean [0, 1] = 1 / 2 := by
    norm_num [listMean]
  have hz : zscore [0, 1] 0 = -1 := by
    unfold zscore
    rw [if_neg (by rw [hvar]; norm_num)]
    unfold pstdev
    rw [hvar, hmean]
    have hs : ((1 / 4 : ℚ) : ℝ) = (1 / 2 : ℝ) ^ 2 := by norm_num
    rw [hs, Real.sqrt_sq (by norm_num)]
    norm_num
  exact ⟨hz, by norm_num [weightCalc]⟩

/-- C4 (amended): the weight produced by the aggregator is non-negative
on every input with non-negative prior weights provided the score that
enters the recurrence is non-negative — as it is after the spec's
rescaling of adjusted scores into `[0,1]`.  Concretely, `weightCalc` is
non-negative whenever `0 ≤ α ≤ 1`, `0 ≤ γ`, `S ≥ 0` and `W_prev ≥ 0`, and
the spec-modelled aggregator step (which clamps its score into `[0,1]`)
is non-negative with no sign condition on the round's z-scores. -/
theorem weight_nonneg_amended (a g S Wprev : ℚ) (dt : ℕ)
    (cfg : PipelineConfig) (l : List EvalResult) (W : ℕ → ℝ) (i : ℕ)
    (ha0 : 0 ≤ a) (ha1 : a ≤ 1) (hg : 0 ≤ g) (hS : 0 ≤ S) (hW : 0 ≤ Wprev)
    (hc0 : 0 ≤ cfg.alpha) (hc1 : cfg.alpha ≤ 1) (hcg : 0 ≤ cfg.gamma)
    (hWi : 0 ≤ W i) :
    0 ≤ weightCalc a g dt S Wprev ∧ 0 ≤ aggregateStep cfg l W i := by
  constructor
  · unfold weightCalc
    have h1 : 0 ≤ a * S := mul_nonneg ha0 hS
    have h2 : 0 ≤ (1 - a) * Wprev * g ^ dt :=
      mul_nonneg (mul_nonneg (by linarith) hW) (pow_nonneg hg dt)
    linarith
  · unfold aggregateStep
    by_cases h : i ∈ l.map (·.pid)
    · rw [if_pos h]
      exact weightWithScore_nonneg cfg W i _ hc0 hc1 hcg hWi
    · rw [if_neg h]
      exact mul_nonneg hWi (by exact_mod_cast hcg)

/-- C5: the Score Normalizer maps a successful raw score `r` to
`(r - mean) / stdev` over the round's successful (non-null) scores only,
`stdev = 0` is equivalent to the variance guard actually tested and holds
whenever all successful scores are identical, and in that case every
participant's normalized score is `0` — the division branch is never
taken with a zero divisor. -/
theorem normalizer_stdev_zero_guard (l : List EvalResult) :
    (pstdev (succScores l) = 0 ↔ pvariance (succScores l) = 0)
    ∧ ((∀ x ∈ succScores l, ∀ y ∈ succScores l, x = y) → pstdev (succScores l) = 0)
    ∧ (∀ i, pstdev (succScores l) = 0 → normScore l i = 0)
    ∧ (∀ i v r, pvariance (succScores l) ≠ 0 → resultOf l i = some v →
        v.raw = some r →
        normScore l i = ((r : ℝ) - (listMean (succScores l) : ℝ)) / pstdev (succScores l)) := by
  refine ⟨pstdev_eq_zero_iff _, ?_, ?_, ?_⟩
  · intro h
    exact (pstdev_eq_zero_iff _).mpr (pvariance_of_const _ h)
  · intro i h
    have hvar : pvariance (succScores l) = 0 := (pstdev_eq_zero_iff _).mp h
    unfold normScore
    cases hres : resultOf l i with
    | none => rfl
    | some v =>
      dsimp only
      cases hraw : v.raw with
      | some r =>
        dsimp only
        unfold zscore
        rw [if_pos hvar]
      | none =>
        dsimp only
        unfold worstScore
        cases hm : minQ (succScores l) with
        | none => rfl
        | some m =>
          dsimp only
          unfold zscore
          rw [if_pos hvar]
  · intro i v r hvar hres hraw
    unfold normScore
    rw [hres]
    dsimp only
    rw [hraw]
    dsimp only
    unfold zscore
    rw [if_neg hvar]

/-- C6: a registered but un-sampled participant's weight is decayed by
exactly `γ` in the aggregator's per-participant update (`α` contributes
nothing, since no score exists for them), and it strictly decreases
whenever `γ < 1` and the prior weight is positive. -/
theorem unsampled_decay (cfg : PipelineConfig) (l : List EvalResult)
    (W : ℕ → ℝ) (i : ℕ) (hns : i ∉ l.map (·.pid)) :
    aggregateStep cfg l W i = W i * (cfg.gamma : ℝ)
    ∧ ((cfg.gamma : ℝ) < 1 → 0 < W i → aggregateStep cfg l W i < W i) := by
  have heq : aggregateStep cfg l W i = W i * (cfg.gamma : ℝ) := by
    unfold aggregateStep
    rw [if_neg hns]
  refine ⟨heq, fun hg hW => ?_⟩
  rw [heq]
  exact (mul_lt_iff_lt_one_right hW).mpr hg

/-- C7: a participant whose evaluation failed (null raw score) receives
the round's minimum normalized score — no sampled participant scores
below them — and the aggregator's update is monotone in the score, so the
weight produced for them never exceeds the weight the same pipeline would
have produced with any higher (non-worst) score. -/
theorem failed_eval_never_helps (cfg : PipelineConfig) (l : List EvalResult)
    (W : ℕ → ℝ) (i : ℕ) (v : EvalResult)
    (hres : resultOf l i = some v) (hraw : v.raw = none) (ha : 0 ≤ cfg.alpha) :
    normScore l i = worstScore l
    ∧ (∀ j u, resultOf l j = some u → normScore l i ≤ normScore l j)
    ∧ aggregateStep cfg l W i = weightWithScore cfg W i (adjustedScore cfg l i)
    ∧ (∀ S : ℝ, adjustedScore cfg l i ≤ S →
        weightWithScore cfg W i (adjustedScore cfg l i) ≤ weightWithScore cfg W i S) := by
  have heq : normScore l i = worstScore l := by
    unfold normScore
    rw [hres]
    dsimp only
    rw [hraw]
  refine ⟨heq, ?_, ?_, ?_⟩
  · intro j u hju
    rw [heq]
    unfold normScore
    rw [hju]
    dsimp only
    cases hur : u.raw with
    | none => exact le_refl _
    | some r => exact worstScore_le_zscore (mem_succScores hju hur)
  · unfold aggregateStep
    rw [if_pos (mem_pids_of_resultOf hres)]
  · intro S hS
    exact weightWithScore_mono cfg W i ha hS

/-- C8: two distinct participants submitting byte-identical content in
the same round are both hit by the duplicate-content check: each one's
adjusted score is `normalized * penalty_factor`, where the multiplicative
penalty factor is at most the configured duplicate factor and lies in
`[0,1]` whenever the configured factors do. -/
theorem duplicate_penalty (cfg : PipelineConfig) (l : List EvalResult)
    (i j : ℕ) (vi vj : EvalResult) (hij : i ≠ j)
    (hvi : resultOf l i = some vi) (hvj : resultOf l j = some vj)
    (hhash : vi.contentHash = vj.contentHash)
    (hd0 : 0 ≤ cfg.dupFactor) (hd1 : cfg.dupFactor ≤ 1)
    (hl0 : 0 ≤ cfg.latFactor) (hl1 : cfg.latFactor ≤ 1) :
    adjustedScore cfg l i = normScore l i * ((penaltyFactor cfg l vi : ℚ) : ℝ)
    ∧ adjustedScore cfg l j = normScore l j * ((penaltyFactor cfg l vj : ℚ) : ℝ)
    ∧ penaltyFactor cfg l vi ≤ cfg.dupFactor
    ∧ penaltyFactor cfg l vj ≤ cfg.dupFactor
    ∧ 0 ≤ penaltyFactor cfg l vi ∧ penaltyFactor cfg l vi ≤ 1
    ∧ 0 ≤ penaltyFactor cfg l vj ∧ penaltyFactor cfg l vj ≤ 1 := by
  have hne : vi ≠ vj := by
    intro he
    apply hij
    rw [← (resultOf_eq_some hvi).2, ← (resultOf_eq_some hvj).2, he]
  have hdupi : 2 ≤ dupCount l vi.contentHash := by
    unfold dupCount
    refine two_le_length_of_mem (a := vi) (b := vj) ?_ ?_ hne
    · exact List.mem_filter.mpr ⟨(resultOf_eq_some hvi).1, by simp⟩
    · exact List.mem_filter.mpr ⟨(resultOf_eq_some hvj).1, by simp [hhash]⟩
  have hdupj : 2 ≤ dupCount l vj.contentHash := by
    rw [← hhash]
    exact hdupi
  have hpi := penaltyFactor_of_dup cfg l vi hdupi hd0 hd1 hl0 hl1
  have hpj := penaltyFactor_of_dup cfg l vj hdupj hd0 hd1 hl0 hl1
  refine ⟨?_, ?_, hpi.1, hpj.1, hpi.2.1, hpi.2.2, hpj.2.1, hpj.2.2⟩
  · unfold adjustedScore
    rw [hvi]
  · unfold adjustedScore
    rw [hvj]

/-- C9: given the (pre-shuffled) list of distinct eligible participant
ids and a target sample size `k`, the Sample Selector returns exactly `k`
distinct ids when at least `k` participants are eligible, and signals
`InsufficientParticipants` (`none`, so the round is skipped) when fewer
than `k` are eligible. -/
theorem sample_selector_contract (elig : List ℕ) (k : ℕ) (hnd : elig.Nodup) :
    (k ≤ elig.length → ∃ s, sampleSelect elig k = some s ∧ s.length = k ∧ s.Nodup)
    ∧ (elig.length < k → sampleSelect elig k = none) := by
  constructor
  · intro hk
    refine ⟨elig.take k, ?_, ?_, ?_⟩
    · unfold sampleSelect
      rw [if_neg (not_lt.mpr hk)]
    · rw [List.length_take]
      exact min_eq_left hk
    · exact List.Nodup.sublist (List.take_sublist k elig) hnd
  · intro hk
    unfold sampleSelect
    rw [if_pos hk]

/-- C10: for all inputs with `successful_requests ≤ total_requests`,
`total_requests > 0`, `RT_actual ≥ 0`, `RT_threshold > 0` and
`max_failures > 0`, the health score
`Health = (SR * 0.6 + RT_score * 0.4) * (1 - failure_penalty)` is
non-negative, because `RT_score = max(0, 1 - RT_actual/RT_threshold)` and
`SR` are non-negative and `failure_penalty = min(1, cf/max_failures)`
never exceeds `1`. -/
theorem health_score_nonneg (successful total consecutiveFailures maxFailures : ℕ)
    (rtActual rtThreshold : ℚ)
    (hst : successful ≤ total) (ht : 0 < total)
    (hrt : 0 ≤ rtActual) (hthr : 0 < rtThreshold) (hmf : 0 < maxFailures) :
    0 ≤ rtScore rtActual rtThreshold
    ∧ 0 ≤ successRate successful total
    ∧ failurePenalty consecutiveFailures maxFailures ≤ 1
    ∧ 0 ≤ healthScore successful total rtActual rtThreshold
        consecutiveFailures maxFailures := by
  have hsr : 0 ≤ successRate successful total := by
    unfold successRate
    positivity
  have hrts : 0 ≤ rtScore rtActual rtThreshold := le_max_left _ _
  have hfp : failurePenalty consecutiveFailures maxFailures ≤ 1 := min_le_left _ _
  refine ⟨hrts, hsr, hfp, ?_⟩
  unfold healthScore
  apply mul_nonneg
  · have h1 : 0 ≤ successRate successful total * (6 / 10) :=
      mul_nonneg hsr (by norm_num)
    have h2 : 0 ≤ rtScore rtActual rtThreshold * (4 / 10) :=
      mul_nonneg hrts (by norm_num)
    linarith
  · linarith

/-! ### Witnesses: the claim theorems evaluated at concrete inputs -/

/-- Witness for C2 at a concrete two-verdict round and its swap. -/
theorem pipeline_order_independent_witness :
    roundPipeline sampleConfig [0, 1] [v0, v1] (fun _ => 1)
      = roundPipeline sampleConfig [0, 1] [v1, v0] (fun _ => 1) :=
  pipeline_order_independent sampleConfig [0, 1] (fun _ => 1)
    (List.Perm.swap v1 v0 []) (by decide)

/-- Witness for C3 at a concrete registry, round and prior weights. -/
theorem budget_invariant_witness :
    (([0] : List ℕ).map (roundPipeline sampleConfig [0] [] (fun _ => 1))).sum
      = (sampleConfig.budget : ℝ) :=
  budget_invariant sampleConfig [0] [] (fun _ => 1) (by
    simp [aggregateStep, sampleConfig])

/-- Witness for the amended C4 at concrete parameters. -/
theorem weight_nonneg_amended_witness :
    0 ≤ weightCalc (1 / 2) (1 / 2) 1 (1 / 2) 1
    ∧ 0 ≤ aggregateStep sampleConfig [] (fun _ => 1) 0 :=
  weight_nonneg_amended (1 / 2) (1 / 2) (1 / 2) 1 1 sampleConfig [] (fun _ => 1) 0
    (by norm_num) (by norm_num) (by norm_num) (by norm_num) (by norm_num)
    (by norm_num [sampleConfig]) (by norm_num [sampleConfig])
    (by norm_num [sampleConfig]) (by norm_num)

/-- Witness for C5 on a round whose two successful scores are identical. -/
theorem normalizer_stdev_zero_guard_witness : normScore [v0, v2] 0 = 0 := by
  have h := normalizer_stdev_zero_guard [v0, v2]
  refine h.2.2.1 0 (h.2.1 ?_)
  intro x hx y hy
  have hs : succScores [v0, v2] = [1 / 2, 1 / 2] := rfl
  rw [hs] at hx hy
  simp only [List.mem_cons, List.not_mem_nil, or_false, or_self] at hx hy
  rw [hx, hy]

/-- Witness for C6 for an unsampled participant id. -/
theorem unsampled_decay_witness :
    aggregateStep sampleConfig [v0] (fun _ => 1) 5
        = (fun _ => (1 : ℝ)) 5 * (sampleConfig.gamma : ℝ)
    ∧ ((sampleConfig.gamma : ℝ) < 1 → 0 < (fun _ => (1 : ℝ)) 5 →
        aggregateStep sampleConfig [v0] (fun _ => 1) 5 < (fun _ => (1 : ℝ)) 5) :=
  unsampled_decay sampleConfig [v0] (fun _ => 1) 5 (by decide)

/-- Witness for C7 on a round with one failed and one successful verdict. -/
theorem failed_eval_never_helps_witness :
    normScore [v1, v0] 1 = worstScore [v1, v0]
    ∧ (∀ j u, resultOf [v1, v0] j = some u →
        normScore [v1, v0] 1 ≤ normScore [v1, v0] j)
    ∧ aggregateStep sampleConfig [v1, v0] (fun _ => 1) 1
        = weightWithScore sampleConfig (fun _ => 1) 1 (adjustedScore sampleConfig [v1, v0] 1)
    ∧ (∀ S : ℝ, adjustedScore sampleConfig [v1, v0] 1 ≤ S →
        weightWithScore sampleConfig (fun _ => 1) 1 (adjustedScore sampleConfig [v1, v0] 1)
          ≤ weightWithScore sampleConfig (fun _ => 1) 1 S) :=
  failed_eval_never_helps sampleConfig [v1, v0] (fun _ => 1) 1 v1
    rfl rfl (by norm_num [sampleConfig])

/-- Witness for C8 on a round with two hash-identical submissions. -/
theorem duplicate_penalty_witness :
    adjustedScore sampleConfig [v0, v2] 0
        = normScore [v0, v2] 0 * ((penaltyFactor sampleConfig [v0, v2] v0 : ℚ) : ℝ)
    ∧ adjustedScore sampleConfig [v0, v2] 2
        = normScore [v0, v2] 2 * ((penaltyFactor sampleConfig [v0, v2] v2 : ℚ) : ℝ)
    ∧ penaltyFactor sampleConfig [v0, v2] v0 ≤ sampleConfig.dupFactor
    ∧ penaltyFactor sampleConfig [v0, v2] v2 ≤ sampleConfig.dupFactor
    ∧ 0 ≤ penaltyFactor sampleConfig [v0, v2] v0
    ∧ penaltyFactor sampleConfig [v0, v2] v0 ≤ 1
    ∧ 0 ≤ penaltyFactor sampleConfig [v0, v2] v2
    ∧ penaltyFactor sampleConfig [v0, v2] v2 ≤ 1 :=
  duplicate_penalty sampleConfig [v0, v2] 0 2 v0 v2
    (by decide) rfl rfl rfl
    (by norm_num [sampleConfig]) (by norm_num [sampleConfig])
    (by norm_num [sampleConfig]) (by norm_num [sampleConfig])

/-- Witness for C9 on a three-participant registry with sample size 2. -/
theorem sample_selector_contract_witness :
    (2 ≤ ([5, 6, 7] : List ℕ).length →
      ∃ s, sampleSelect [5, 6, 7] 2 = some s ∧ s.length = 2 ∧ s.Nodup)
    ∧ (([5, 6, 7] : List ℕ).length < 2 → sampleSelect [5, 6, 7] 2 = none) :=
  sample_selector_contract [5, 6, 7] 2 (by decide)

/-- Witness for C10 at concrete request counts and latencies. -/
theorem health_score_nonneg_witness :
    0 ≤ rtScore 1 2 ∧ 0 ≤ successRate 3 4 ∧ failurePenalty 2 5 ≤ 1
    ∧ 0 ≤ healthScore 3 4 1 2 2 5 :=
  health_score_nonneg 3 4 2 5 1 2
    (by norm_num) (by norm_num) (by norm_num) (by norm_num) (by norm_num)

end Agent4All
